import Mathlib

/-!
Shallow embedding of the AutoDiff computational-graph engine
(src/libs/AutoDiff/include/Node.hpp and IModule.hpp) together with the
example backends of its test suite
(src/libs/AutoDiff/tests/ScalarTest.cpp and VectorTest.cpp).

Nodes live in an append-only store (a list); a node is identified by its
index, which plays the role of the C++ object identity (the raw pointer
used as the key of the visited set). A Module only ever attaches
already-existing nodes as parents of freshly appended nodes, so in every
graph built by Module calls each node's parents have strictly smaller
indices; `wellFormed` captures exactly that construction discipline and
serves as the acyclicity hypothesis.

The C++ recursion of `TopologicalSortInner` is unbounded; the embedding
carries a fuel argument. In a `wellFormed` graph the recursion depth
from node `n` is at most `n + 1` because parent indices strictly
decrease, so fuel `root + 1` reproduces the unbounded recursion exactly.
-/

namespace AutoDiff

/-- Assignment from an int literal, the `a = 1` and `a = 0` operation that the
`NodeT` concept of Node.hpp requires. The first argument is the previous value,
so that container types can keep their shape, as `Vec::operator=(int)` of
VectorTest.cpp does. -/
class AssignInt (T : Type) where
  assign : T → Int → T

instance : AssignInt Int := ⟨fun _ v => v⟩

/-- Elementwise assignment of VectorTest.cpp's `Vec<T>::operator=(int)`:
every element of the container is overwritten, the length is kept. -/
instance : AssignInt (List Int) := ⟨fun a v => a.map fun _ => v⟩

/-- Data captured by the backward closure bound in `DEFINE_MODULE`'s Forward
(IModule.hpp): the backend operation tag, the captured input list, the output
node's identity and the output's index among the operation's outputs. -/
structure Closure (Op : Type) where
  op : Op
  inputs : List Nat
  out : Nat
  idx : Nat
  deriving DecidableEq

/-- The Node of Node.hpp: value, gradient, participation flag, optional
backward closure and the ordered parent list. -/
structure Node (T : Type) (Op : Type) where
  data : T
  grad : T
  requiresGrad : Bool
  backwardFn : Option (Closure Op)
  parents : List Nat
  deriving DecidableEq

/-- The default constructor `Node() = default` with the member initializers
`T data{}; T grad{}; bool requiresGrad{true};`: value-initialized data and
grad, no parents, no closure. -/
def Node.defaultNode {T Op : Type} [Inhabited T] : Node T Op :=
  { data := default, grad := default, requiresGrad := true, backwardFn := none, parents := [] }

instance {T Op : Type} [Inhabited T] : Inhabited (Node T Op) := ⟨Node.defaultNode⟩

/-- The value constructor `Node(T data, bool requiresGrad = true)`: grad is
first default-initialized, then, if `requiresGrad`, assigned to `data` and
then assigned to the literal 0 (so it is the shape-matched zero). -/
def Node.construct {T Op : Type} [Inhabited T] [AssignInt T]
    (data : T) (requiresGrad : Bool := true) : Node T Op :=
  { data := data
    grad := if requiresGrad then AssignInt.assign data 0 else default
    requiresGrad := requiresGrad
    backwardFn := none
    parents := [] }

/-- The node store: index = node identity. -/
abbrev Graph (T Op : Type) := List (Node T Op)

variable {T Op : Type}

/-- Resolve a node identity to the node it denotes. -/
def nodeAt [Inhabited T] (g : Graph T Op) (n : Nat) : Node T Op :=
  g.getD n default

/-- In-place mutation of one node of the store. -/
def updateNode [Inhabited T] (g : Graph T Op) (n : Nat) (f : Node T Op → Node T Op) : Graph T Op :=
  g.set n (f (nodeAt g n))

/-- Construction discipline of graphs built by Module calls: every node's
parents were appended earlier, so parent indices are strictly smaller. -/
def wellFormed [Inhabited T] (g : Graph T Op) : Prop :=
  ∀ n, n < g.length → ∀ p ∈ (nodeAt g n).parents, p < n

instance [Inhabited T] (g : Graph T Op) : Decidable (wellFormed g) :=
  decidable_of_iff (∀ n, n < g.length → ∀ p ∈ (nodeAt g n).parents, p < n) Iff.rfl

/-- `Node::TopologicalSortInner` of Node.hpp: if the node is already visited
or does not require differentiation, return; otherwise mark visited, recurse
into every parent in listed order, then append the node to the order. The
recursion is structural on the fuel. -/
def TopologicalSortInner [Inhabited T] (g : Graph T Op) :
    Nat → Nat → List Nat → List Nat → List Nat × List Nat
  | 0, _, visited, sortedNodes => (visited, sortedNodes)
  | fuel + 1, n, visited, sortedNodes =>
      if n ∈ visited ∨ (nodeAt g n).requiresGrad = false then (visited, sortedNodes)
      else
        let acc := (nodeAt g n).parents.foldl
          (fun acc p => TopologicalSortInner g fuel p acc.1 acc.2) (n :: visited, sortedNodes)
        (acc.1, acc.2 ++ [n])

/-- The for-loop over `node->parents` inside `TopologicalSortInner`, named for
the proofs below. -/
def visitParents [Inhabited T] (g : Graph T Op) (fuel : Nat) (ps : List Nat)
    (visited sortedNodes : List Nat) : List Nat × List Nat :=
  ps.foldl (fun acc p => TopologicalSortInner g fuel p acc.1 acc.2) (visited, sortedNodes)

/-- `Node::TopologicalSort`: depth-first post-order rooted at `root`, with an
empty visited set and an empty order. -/
def TopologicalSort [Inhabited T] (g : Graph T Op) (root : Nat) : List Nat :=
  (TopologicalSortInner g (root + 1) root [] []).2

/-- The `grad = 1` statement at the start of `Node::Backward`. -/
def setGradOne [Inhabited T] [AssignInt T] (g : Graph T Op) (root : Nat) : Graph T Op :=
  updateNode g root fun nd => { nd with grad := AssignInt.assign nd.grad 1 }

/-- Semantics of the backend backward functions that the stored closures
invoke: operation tag, captured inputs, output identity, output index. -/
abbrev Interp (T Op : Type) := Op → List Nat → Nat → Nat → Graph T Op → Graph T Op

/-- The replay loop of `Node::Backward`: iterate the given order, invoking
each node's backward closure when present. -/
def replay [Inhabited T] (interp : Interp T Op) (g : Graph T Op) (order : List Nat) : Graph T Op :=
  order.foldl
    (fun acc n =>
      match (nodeAt acc n).backwardFn with
      | some c => interp c.op c.inputs c.out c.idx acc
      | none => acc)
    g

/-- `Node::Backward`: no-op when the root does not require differentiation;
otherwise assign the root's grad to 1, topologically sort, and replay the
order in reverse. -/
def Backward [Inhabited T] [AssignInt T] (interp : Interp T Op)
    (g : Graph T Op) (root : Nat) : Graph T Op :=
  if (nodeAt g root).requiresGrad = false then g
  else
    let g1 := setGradOne g root
    replay interp g1 (TopologicalSort g1 root).reverse

/-- The for-loop over `outputs` in `DEFINE_MODULE`'s Forward: each output's
parents become the inputs, its flag becomes the combined flag, and a backward
closure capturing inputs, output identity and output index is bound exactly
when the combined flag is true. -/
def wireOutputs [Inhabited T] (op : Op) (inputs : List Nat) (requiresGrad : Bool) :
    Nat → List Nat → Graph T Op → Graph T Op
  | _, [], g => g
  | i, o :: os, g =>
      wireOutputs op inputs requiresGrad (i + 1) os
        (updateNode g o fun nd =>
          { nd with
            parents := inputs
            requiresGrad := requiresGrad
            backwardFn := if requiresGrad then some ⟨op, inputs, o, i⟩ else nd.backwardFn })

/-- `DEFINE_MODULE`'s Forward (IModule.hpp): compute the disjunction of the
inputs' flags, run the backend forward, then wire every output. -/
def ModuleForward [Inhabited T] (op : Op)
    (fwd : List Nat → Graph T Op → Graph T Op × List Nat)
    (g : Graph T Op) (inputs : List Nat) : Graph T Op × List Nat :=
  let requiresGrad := inputs.any fun i => (nodeAt g i).requiresGrad
  let res := fwd inputs g
  (wireOutputs op inputs requiresGrad 0 res.2 res.1, res.2)

/-! ### Example backends from the test suite -/

/-- Operation tags of the scalar test backend (ScalarTest.cpp). -/
inductive ScalarOp
  | basicSum
  deriving DecidableEq

/-- `BasicBackend::BasicSumForward`: push a default-constructed node and
accumulate every input's data into its data. -/
def basicSumForward (inputs : List Nat) (g : Graph Int ScalarOp) :
    Graph Int ScalarOp × List Nat :=
  let outId := g.length
  let g1 := g ++ [Node.defaultNode]
  let g2 := updateNode g1 outId fun nd =>
    { nd with data := inputs.foldl (fun acc i => acc + (nodeAt g1 i).data) nd.data }
  (g2, [outId])

/-- `BasicBackend::BasicSumBackward`: for every input that requires grad,
accumulate the output's grad into the input's grad. -/
def basicSumBackward (inputs : List Nat) (out : Nat) (g : Graph Int ScalarOp) :
    Graph Int ScalarOp :=
  inputs.foldl
    (fun acc i =>
      if (nodeAt acc i).requiresGrad then
        updateNode acc i fun nd => { nd with grad := nd.grad + (nodeAt acc out).grad }
      else acc)
    g

/-- Closure semantics for the scalar backend. -/
def scalarInterp : Interp Int ScalarOp := fun _ ins out _ g => basicSumBackward ins out g

/-- Operation tags of the vector test backend (VectorTest.cpp). A parameterized
operation carries its immutable parameter, mirroring the by-value capture of
`DEFINE_MODULE_WITH_PARAMS`. -/
inductive VecOp
  | split
  | pow (p : Int)
  deriving DecidableEq

abbrev VGraph := Graph (List Int) VecOp

/-- Model of `std::pow` on ints for the nonnegative integer exponents the
tests use. -/
def ipow (x p : Int) : Int := x ^ p.toNat

/-- `VectorBackend::VectorSplitForward`: one single-element output node per
element of the input's data, each built by the value constructor. -/
def vectorSplitForward (inputs : List Nat) (g : VGraph) : VGraph × List Nat :=
  let inp := nodeAt g (inputs.headD 0)
  let outs := inp.data.map fun x => (Node.construct [x] : Node (List Int) VecOp)
  (g ++ outs, List.range' g.length outs.length)

/-- `VectorBackend::VectorSplitBackward`: if the input requires grad,
accumulate the output's single grad entry into the input's grad at the
output's index. -/
def vectorSplitBackward (inputs : List Nat) (out : Nat) (outputIdx : Nat) (g : VGraph) : VGraph :=
  let i := inputs.headD 0
  if (nodeAt g i).requiresGrad then
    updateNode g i fun nd =>
      { nd with grad :=
          nd.grad.set outputIdx (nd.grad.getD outputIdx 0 + (nodeAt g out).grad.getD 0 0) }
  else g

/-- `VectorBackend::VectorPowForward`: push a node built from a zero vector of
the input's length, then overwrite each data entry with the elementwise power. -/
def vectorPowForward (inputs : List Nat) (g : VGraph) (p : Int) : VGraph × List Nat :=
  let inp := nodeAt g (inputs.headD 0)
  let base : Node (List Int) VecOp := Node.construct (List.replicate inp.data.length 0)
  let outNode := { base with data := inp.data.map fun x => ipow x p }
  (g ++ [outNode], [g.length])

/-- `VectorBackend::VectorPowBackward`: if the input requires grad, accumulate
`p * x ^ (p - 1) * outputGrad` elementwise into the input's grad. -/
def vectorPowBackward (inputs : List Nat) (out : Nat) (p : Int) (g : VGraph) : VGraph :=
  let i := inputs.headD 0
  if (nodeAt g i).requiresGrad then
    updateNode g i fun nd =>
      { nd with grad :=
          (List.zipWith (fun xg og => xg.1 + p * ipow xg.2 (p - 1) * og)
            (nd.grad.zip nd.data) (nodeAt g out).grad) }
  else g

/-- Closure semantics for the vector backend; a parameterized closure passes
the identical captured parameter to the backward function. -/
def vecInterp : Interp (List Int) VecOp := fun op ins out idx g =>
  match op with
  | .split => vectorSplitBackward ins out idx g
  | .pow p => vectorPowBackward ins out p g

/-! ### Concrete graphs from the test suite -/

/-- Leaves of ForwardCaseSum2Numbers: a = 3 at index 0, b = 4 at index 1. -/
def leaf34 : Graph Int ScalarOp := [Node.construct 3, Node.construct 4]

/-- BackwarCaseSum2Numbers: c = Sum(a, b) at index 2. -/
def pairSumGraph : Graph Int ScalarOp :=
  (ModuleForward ScalarOp.basicSum basicSumForward leaf34 [0, 1]).1

/-- SequantialCallOfModuleCase: leaves a (index 0) and b (index 1),
c = Sum(a, b) at index 2, d = Sum(c, b) at index 3. -/
def fanoutGraph (va vb : Int) : Graph Int ScalarOp :=
  (ModuleForward ScalarOp.basicSum basicSumForward
    (ModuleForward ScalarOp.basicSum basicSumForward
      [Node.construct va, Node.construct vb] [0, 1]).1 [2, 1]).1

/-- RequiresGradFalseCase: a = 10 non-differentiable (index 0), b = 100
(index 1), c = Sum(a,a) (2), d = Sum(a,b) (3), e = Sum(b,b) (4),
f = Sum(c,d,e) (5). -/
def mixedGraph : Graph Int ScalarOp :=
  (ModuleForward ScalarOp.basicSum basicSumForward
    (ModuleForward ScalarOp.basicSum basicSumForward
      (ModuleForward ScalarOp.basicSum basicSumForward
        (ModuleForward ScalarOp.basicSum basicSumForward
          [Node.construct 10 false, Node.construct 100 true] [0, 0]).1 [0, 1]).1 [1, 1]).1
    [2, 3, 4]).1

/-- The vector leaf [1, 2, 3, 4] of the vector tests, at index 0. -/
def vecLeaf : VGraph := [Node.construct [1, 2, 3, 4]]

/-- SplitVectorCase: the split module applied to the vector leaf. -/
def splitState : VGraph × List Nat :=
  ModuleForward VecOp.split vectorSplitForward vecLeaf [0]

/-- ModuleWithParamsCase: the pow module with parameter 2. The module stores
the parameter; its Forward passes it to the backend forward and embeds the
identical value in the closure tag read by the backend backward at replay. -/
def powState : VGraph × List Nat :=
  ModuleForward (VecOp.pow 2) (fun ins g => vectorPowForward ins g 2) vecLeaf [0]

/-- A model element type whose int-assignment result is observably different
from its default value; it records whether an assignment ever happened, and
so witnesses which constructor path touched the grad. It satisfies the NodeT
concept (assignable from itself and from an int literal). -/
structure Tracked where
  val : Int
  assigned : Bool
  deriving DecidableEq

instance : Inhabited Tracked := ⟨⟨0, false⟩⟩

instance : AssignInt Tracked := ⟨fun _ v => ⟨v, true⟩⟩

/-! ### The traversal invariant -/

/-- Invariant of the depth-first traversal state: `vis` is the visited set,
`srt` the order built so far. `pairwise` is the ordering property being
established (no element of the order has a later element as a parent),
`closed` says every ordered node's parents have been handled; the rest is
bookkeeping. -/
structure TraversalInv [Inhabited T] (g : Graph T Op) (vis srt : List Nat) : Prop where
  pairwise : srt.Pairwise fun a b => b ∉ (nodeAt g a).parents
  closed : ∀ x ∈ srt, ∀ p ∈ (nodeAt g x).parents,
    p ∈ vis ∨ (nodeAt g p).requiresGrad = false
  subVis : ∀ x ∈ srt, x ∈ vis
  nodup : srt.Nodup
  bounded : ∀ x ∈ srt, x < g.length

/-- Specification of one `TopologicalSortInner` call: the invariant is
preserved, the visited set grows, only nodes with index at most `n` are
appended, and afterwards `n` is visited or does not require grad. -/
def VisitSpec [Inhabited T] (g : Graph T Op) (fuel : Nat) : Prop :=
  ∀ n vis srt, n < fuel → n < g.length → TraversalInv g vis srt →
    TraversalInv g (TopologicalSortInner g fuel n vis srt).1
        (TopologicalSortInner g fuel n vis srt).2 ∧
    (∀ x ∈ vis, x ∈ (TopologicalSortInner g fuel n vis srt).1) ∧
    (∃ d, (TopologicalSortInner g fuel n vis srt).2 = srt ++ d ∧ ∀ m ∈ d, m ≤ n) ∧
    (n ∈ (TopologicalSortInner g fuel n vis srt).1 ∨ (nodeAt g n).requiresGrad = false)

/-- Specification of the parent loop, analogous to `VisitSpec`. -/
def ParentsSpec [Inhabited T] (g : Graph T Op) (fuel : Nat) : Prop :=
  ∀ ps vis srt, (∀ p ∈ ps, p < fuel ∧ p < g.length) → TraversalInv g vis srt →
    TraversalInv g (visitParents g fuel ps vis srt).1 (visitParents g fuel ps vis srt).2 ∧
    (∀ x ∈ vis, x ∈ (visitParents g fuel ps vis srt).1) ∧
    (∃ d, (visitParents g fuel ps vis srt).2 = srt ++ d ∧ ∀ m ∈ d, ∃ p ∈ ps, m ≤ p) ∧
    (∀ p ∈ ps, p ∈ (visitParents g fuel ps vis srt).1 ∨ (nodeAt g p).requiresGrad = false)

/-! ### Store lemmas -/

theorem length_updateNode [Inhabited T] (g : Graph T Op) (n : Nat) (f : Node T Op → Node T Op) :
    (updateNode g n f).length = g.length := by
  simp [updateNode]

theorem nodeAt_updateNode_ne [Inhabited T] (g : Graph T Op) (n m : Nat)
    (f : Node T Op → Node T Op) (h : m ≠ n) :
    nodeAt (updateNode g n f) m = nodeAt g m := by
  show ((g.set n _).get? m).getD default = (g.get? m).getD default
  rw [List.get?_set_ne _ _ (Ne.symm h)]

theorem nodeAt_updateNode_self [Inhabited T] (g : Graph T Op) (n : Nat)
    (f : Node T Op → Node T Op) (h : n < g.length) :
    nodeAt (updateNode g n f) n = f (nodeAt g n) := by
  show ((g.set n _).get? n).getD default = _
  rw [List.get?_set_eq_of_lt _ h]
  rfl

theorem updateNode_oob [Inhabited T] (g : Graph T Op) (n : Nat)
    (f : Node T Op → Node T Op) (h : ¬ n < g.length) :
    updateNode g n f = g := by
  unfold updateNode
  exact List.set_eq_of_length_le (Nat.le_of_not_lt h)

theorem nodeAt_updateNode [Inhabited T] (g : Graph T Op) (n m : Nat)
    (f : Node T Op → Node T Op) :
    nodeAt (updateNode g n f) m
      = if m = n ∧ n < g.length then f (nodeAt g n) else nodeAt g m := by
  by_cases h1 : m = n
  · subst h1
    by_cases h2 : m < g.length
    · rw [nodeAt_updateNode_self g m f h2, if_pos ⟨rfl, h2⟩]
    · rw [updateNode_oob g m f h2, if_neg (fun hc => h2 hc.2)]
  · rw [nodeAt_updateNode_ne g n m f h1, if_neg (fun hc => h1 hc.1)]

theorem length_setGradOne [Inhabited T] [AssignInt T] (g : Graph T Op) (root : Nat) :
    (setGradOne g root).length = g.length :=
  length_updateNode g root _

/-- The `grad = 1` assignment changes no field other than the root's grad. -/
theorem nodeAt_setGradOne [Inhabited T] [AssignInt T] (g : Graph T Op) (root m : Nat) :
    (nodeAt (setGradOne g root) m).parents = (nodeAt g m).parents ∧
    (nodeAt (setGradOne g root) m).requiresGrad = (nodeAt g m).requiresGrad ∧
    (nodeAt (setGradOne g root) m).backwardFn = (nodeAt g m).backwardFn ∧
    (m ≠ root → (nodeAt (setGradOne g root) m).grad = (nodeAt g m).grad) := by
  unfold setGradOne
  rw [nodeAt_updateNode]
  by_cases h : m = root ∧ root < g.length
  · rcases h with ⟨rfl, h2⟩
    rw [if_pos ⟨rfl, h2⟩]
    exact ⟨rfl, rfl, rfl, fun hc => absurd rfl hc⟩
  · rw [if_neg h]
    exact ⟨rfl, rfl, rfl, fun _ => rfl⟩

theorem wellFormed_setGradOne [Inhabited T] [AssignInt T] (g : Graph T Op) (root : Nat)
    (hwf : wellFormed g) : wellFormed (setGradOne g root) := by
  intro n hn p hp
  rw [length_setGradOne] at hn
  rw [(nodeAt_setGradOne g root n).1] at hp
  exact hwf n hn p hp

/-! ### Unfolding equations of the traversal -/

theorem topologicalSortInner_succ [Inhabited T] (g : Graph T Op) (fuel n : Nat)
    (visited sortedNodes : List Nat) :
    TopologicalSortInner g (fuel + 1) n visited sortedNodes
      = if n ∈ visited ∨ (nodeAt g n).requiresGrad = false then (visited, sortedNodes)
        else
          ((visitParents g fuel (nodeAt g n).parents (n :: visited) sortedNodes).1,
           (visitParents g fuel (nodeAt g n).parents (n :: visited) sortedNodes).2 ++ [n]) :=
  rfl

theorem visitParents_nil [Inhabited T] (g : Graph T Op) (fuel : Nat)
    (visited sortedNodes : List Nat) :
    visitParents g fuel [] visited sortedNodes = (visited, sortedNodes) :=
  rfl

theorem visitParents_cons [Inhabited T] (g : Graph T Op) (fuel p : Nat) (ps : List Nat)
    (visited sortedNodes : List Nat) :
    visitParents g fuel (p :: ps) visited sortedNodes
      = visitParents g fuel ps (TopologicalSortInner g fuel p visited sortedNodes).1
          (TopologicalSortInner g fuel p visited sortedNodes).2 :=
  rfl

/-! ### The ordering theorem -/

theorem topologicalSortInner_spec [Inhabited T] (g : Graph T Op) (hwf : wellFormed g) :
    ∀ fuel, VisitSpec g fuel ∧ ParentsSpec g fuel := by
  intro fuel
  induction fuel with
  | zero =>
      constructor
      · intro n vis srt hn _ _
        exact absurd hn (Nat.not_lt_zero n)
      · intro ps vis srt hps hinv
        cases ps with
        | nil =>
            rw [visitParents_nil]
            exact ⟨hinv, fun x hx => hx, ⟨[], by simp, by simp⟩, by simp⟩
        | cons p ps =>
            exact absurd (hps p (List.mem_cons_self p ps)).1 (Nat.not_lt_zero p)
  | succ f ih =>
      have hV : VisitSpec g (f + 1) := by
        intro n vis srt hn hlen hinv
        rw [topologicalSortInner_succ]
        by_cases hguard : n ∈ vis ∨ (nodeAt g n).requiresGrad = false
        · rw [if_pos hguard]
          exact ⟨hinv, fun x hx => hx, ⟨[], by simp, by simp⟩, hguard⟩
        · rw [if_neg hguard]
          push_neg at hguard
          obtain ⟨hnvis, hrgne⟩ := hguard
          have hrg : (nodeAt g n).requiresGrad = true := by
            cases h : (nodeAt g n).requiresGrad
            · exact absurd h hrgne
            · rfl
          have hps : ∀ p ∈ (nodeAt g n).parents, p < f ∧ p < g.length := by
            intro p hp
            have := hwf n hlen p hp
            omega
          have hinv2 : TraversalInv g (n :: vis) srt :=
            { pairwise := hinv.pairwise
              closed := fun x hx p hp =>
                (hinv.closed x hx p hp).imp_left (List.mem_cons_of_mem n)
              subVis := fun x hx => List.mem_cons_of_mem n (hinv.subVis x hx)
              nodup := hinv.nodup
              bounded := hinv.bounded }
          obtain ⟨hinv3, hsub3, ⟨d, hd, hdb⟩, hmark3⟩ :=
            ih.2 (nodeAt g n).parents (n :: vis) srt hps hinv2
          have hdlt : ∀ m ∈ d, m < n := by
            intro m hm
            obtain ⟨p, hp, hle⟩ := hdb m hm
            exact Nat.lt_of_le_of_lt hle (hwf n hlen p hp)
          refine ⟨?_, ?_, ?_, ?_⟩
          · refine
              { pairwise := ?_
                closed := ?_
                subVis := ?_
                nodup := ?_
                bounded := ?_ }
            · rw [hd] at hinv3 ⊢
              refine List.pairwise_append.2 ⟨hinv3.pairwise, List.pairwise_singleton _ _, ?_⟩
              intro a ha b hb
              rw [List.mem_singleton.1 hb]
              rcases List.mem_append.1 ha with hsrt | hdm
              · intro hcontra
                rcases hinv.closed a hsrt n hcontra with hv | hfalse
                · exact hnvis hv
                · rw [hrg] at hfalse
                  cases hfalse
              · intro hcontra
                have h2 : a < g.length := hinv3.bounded a (List.mem_append_right srt hdm)
                have := hwf a h2 n hcontra
                have := hdlt a hdm
                omega
            · intro x hx p hp
              rcases List.mem_append.1 hx with hx | hx
              · exact hinv3.closed x hx p hp
              · rw [List.mem_singleton.1 hx] at hp
                exact hmark3 p hp
            · intro x hx
              rcases List.mem_append.1 hx with hx | hx
              · exact hinv3.subVis x hx
              · rw [List.mem_singleton.1 hx]
                exact hsub3 n (List.mem_cons_self n vis)
            · refine List.nodup_append.2 ⟨hinv3.nodup, List.nodup_singleton n, ?_⟩
              intro a ha hb
              rw [List.mem_singleton.1 hb] at ha
              rw [hd] at ha
              rcases List.mem_append.1 ha with ha | ha
              · exact hnvis (hinv.subVis n ha)
              · exact absurd (hdlt n ha) (Nat.lt_irrefl n)
            · intro x hx
              rcases List.mem_append.1 hx with hx | hx
              · exact hinv3.bounded x hx
              · rw [List.mem_singleton.1 hx]
                exact hlen
          · exact fun x hx => hsub3 x (List.mem_cons_of_mem n hx)
          · refine ⟨d ++ [n], by rw [hd, List.append_assoc], ?_⟩
            intro m hm
            rcases List.mem_append.1 hm with hm | hm
            · exact Nat.le_of_lt (hdlt m hm)
            · rw [List.mem_singleton.1 hm]
          · exact Or.inl (hsub3 n (List.mem_cons_self n vis))
      have hP : ParentsSpec g (f + 1) := by
        intro ps
        induction ps with
        | nil =>
            intro vis srt _ hinv
            rw [visitParents_nil]
            exact ⟨hinv, fun x hx => hx, ⟨[], by simp, by simp⟩, by simp⟩
        | cons p ps ihps =>
            intro vis srt hps hinv
            obtain ⟨hinv1, hsub1, ⟨d1, hd1, hdb1⟩, hmark1⟩ :=
              hV p vis srt (hps p (List.mem_cons_self p ps)).1
                (hps p (List.mem_cons_self p ps)).2 hinv
            obtain ⟨hinv2, hsub2, ⟨d2, hd2, hdb2⟩, hmark2⟩ :=
              ihps (TopologicalSortInner g (f + 1) p vis srt).1
                (TopologicalSortInner g (f + 1) p vis srt).2
                (fun q hq => hps q (List.mem_cons_of_mem p hq)) hinv1
            rw [visitParents_cons]
            refine ⟨hinv2, fun x hx => hsub2 x (hsub1 x hx), ⟨d1 ++ d2, ?_, ?_⟩, ?_⟩
            · rw [hd2, hd1, List.append_assoc]
            · intro m hm
              rcases List.mem_append.1 hm with hm | hm
              · exact ⟨p, List.mem_cons_self p ps, hdb1 m hm⟩
              · obtain ⟨q, hq, hle⟩ := hdb2 m hm
                exact ⟨q, List.mem_cons_of_mem p hq, hle⟩
            · intro q hq
              rcases List.mem_cons.1 hq with rfl | hq'
              · rcases hmark1 with h | h
                · exact Or.inl (hsub2 q h)
                · exact Or.inr h
              · exact hmark2 q hq'
      exact ⟨hV, hP⟩

/-- The traversal invariant holds of the finished topological sort. -/
theorem topologicalSort_inv [Inhabited T] (g : Graph T Op) (hwf : wellFormed g)
    (root : Nat) (hroot : root < g.length) :
    TraversalInv g (TopologicalSortInner g (root + 1) root [] []).1
      (TopologicalSort g root) := by
  have h0 : TraversalInv g [] [] :=
    { pairwise := List.Pairwise.nil
      closed := by simp
      subVis := by simp
      nodup := List.nodup_nil
      bounded := by simp }
  exact ((topologicalSortInner_spec g hwf (root + 1)).1 root [] []
    (Nat.lt_succ_self root) hroot h0).1

/-- Every parent that appears in the order appears strictly before every node
that lists it as a parent. -/
theorem topologicalSort_parents_before [Inhabited T] (g : Graph T Op) (hwf : wellFormed g)
    (root : Nat) (hroot : root < g.length) :
    ∀ i j (hi : i < (TopologicalSort g root).length)
        (hj : j < (TopologicalSort g root).length),
      (TopologicalSort g root).get ⟨i, hi⟩
          ∈ (nodeAt g ((TopologicalSort g root).get ⟨j, hj⟩)).parents →
      i < j := by
  intro i j hi hj hmem
  have hinv := topologicalSort_inv g hwf root hroot
  rcases Nat.lt_trichotomy i j with h | h | h
  · exact h
  · exfalso
    subst h
    have hball : (TopologicalSort g root).get ⟨i, hi⟩ < g.length :=
      hinv.bounded _ (List.get_mem _ _ _)
    have := hwf _ hball _ hmem
    omega
  · exfalso
    have hpw := List.pairwise_iff_get.1 hinv.pairwise ⟨j, hj⟩ ⟨i, hi⟩ h
    exact hpw hmem

/-! ### Wiring lemmas for Module Forward -/

theorem wireOutputs_length [Inhabited T] (op : Op) (inputs : List Nat) (b : Bool) :
    ∀ (os : List Nat) (i0 : Nat) (g : Graph T Op),
      (wireOutputs op inputs b i0 os g).length = g.length := by
  intro os
  induction os with
  | nil => intro i0 g; rfl
  | cons o os ih =>
      intro i0 g
      show (wireOutputs op inputs b (i0 + 1) os (updateNode g o _)).length = _
      rw [ih, length_updateNode]

theorem wireOutputs_nodeAt_notMem [Inhabited T] (op : Op) (inputs : List Nat) (b : Bool) :
    ∀ (os : List Nat) (i0 : Nat) (g : Graph T Op) (m : Nat), m ∉ os →
      nodeAt (wireOutputs op inputs b i0 os g) m = nodeAt g m := by
  intro os
  induction os with
  | nil => intro i0 g m _; rfl
  | cons o os ih =>
      intro i0 g m hm
      show nodeAt (wireOutputs op inputs b (i0 + 1) os (updateNode g o _)) m = _
      rw [ih (i0 + 1) _ m (fun h => hm (List.mem_cons_of_mem o h))]
      exact nodeAt_updateNode_ne g o m _ (fun h => hm (h ▸ List.mem_cons_self o os))

theorem wireOutputs_nodeAt_get [Inhabited T] (op : Op) (inputs : List Nat) (b : Bool) :
    ∀ (os : List Nat) (i0 : Nat) (g : Graph T Op), os.Nodup → (∀ o ∈ os, o < g.length) →
      ∀ k (hk : k < os.length),
        nodeAt (wireOutputs op inputs b i0 os g) (os.get ⟨k, hk⟩)
          = { nodeAt g (os.get ⟨k, hk⟩) with
              parents := inputs
              requiresGrad := b
              backwardFn := if b then some ⟨op, inputs, os.get ⟨k, hk⟩, i0 + k⟩
                            else (nodeAt g (os.get ⟨k, hk⟩)).backwardFn } := by
  intro os
  induction os with
  | nil => intro i0 g _ _ k hk; exact absurd hk (Nat.not_lt_zero k)
  | cons o os ih =>
      intro i0 g hnd hvalid k hk
      obtain ⟨hno, hnd'⟩ := List.nodup_cons.1 hnd
      cases k with
      | zero =>
          show nodeAt (wireOutputs op inputs b (i0 + 1) os (updateNode g o _)) o = _
          rw [wireOutputs_nodeAt_notMem op inputs b os (i0 + 1) _ o hno,
            nodeAt_updateNode_self g o _ (hvalid o (List.mem_cons_self o os))]
          simp
      | succ k =>
          have hkk := Nat.lt_of_succ_lt_succ hk
          have hne : os.get ⟨k, hkk⟩ ≠ o := fun h => hno (h ▸ List.get_mem os k hkk)
          show nodeAt
              (wireOutputs op inputs b (i0 + 1) os
                (updateNode g o fun nd =>
                  { nd with
                    parents := inputs
                    requiresGrad := b
                    backwardFn := if b then some ⟨op, inputs, o, i0⟩ else nd.backwardFn }))
              (os.get ⟨k, hkk⟩) = _
          rw [ih (i0 + 1) _ hnd'
            (by
              rw [length_updateNode]
              exact fun o' h => hvalid o' (List.mem_cons_of_mem o h)) k hkk]
          rw [nodeAt_updateNode_ne g o _ _ hne]
          have harith : i0 + 1 + k = i0 + (k + 1) := by omega
          rw [harith]
          rfl

/-! ### Flag preservation lemmas -/

/-- Updating a node with a function that keeps its flag keeps every flag. -/
theorem updateNode_keepFlag [Inhabited T] (g : Graph T Op) (n : Nat)
    (f : Node T Op → Node T Op) (hf : ∀ nd, (f nd).requiresGrad = nd.requiresGrad) (m : Nat) :
    (nodeAt (updateNode g n f) m).requiresGrad = (nodeAt g m).requiresGrad := by
  by_cases h : m = n ∧ n < g.length
  · rw [nodeAt_updateNode, if_pos h, hf, h.1]
  · rw [nodeAt_updateNode, if_neg h]

theorem replay_cons [Inhabited T] (interp : Interp T Op) (g : Graph T Op)
    (n : Nat) (rest : List Nat) :
    replay interp g (n :: rest)
      = replay interp
          (match (nodeAt g n).backwardFn with
           | some c => interp c.op c.inputs c.out c.idx g
           | none => g) rest :=
  rfl

theorem replay_keepFlag [Inhabited T] (interp : Interp T Op)
    (hinterp : ∀ o ins out idx (g : Graph T Op) m,
      (nodeAt (interp o ins out idx g) m).requiresGrad = (nodeAt g m).requiresGrad) :
    ∀ (order : List Nat) (g : Graph T Op) (m : Nat),
      (nodeAt (replay interp g order) m).requiresGrad = (nodeAt g m).requiresGrad := by
  intro order
  induction order with
  | nil => intro g m; rfl
  | cons n rest ih =>
      intro g m
      rw [replay_cons]
      cases h : (nodeAt g n).backwardFn with
      | none => exact ih g m
      | some c => exact (ih _ m).trans (hinterp c.op c.inputs c.out c.idx g m)

/-- The scalar sum backward touches only grads, never flags. -/
theorem basicSumBackward_keepFlag :
    ∀ (ins : List Nat) (out : Nat) (g : Graph Int ScalarOp) (m : Nat),
      (nodeAt (basicSumBackward ins out g) m).requiresGrad = (nodeAt g m).requiresGrad := by
  intro ins
  induction ins with
  | nil => intro out g m; rfl
  | cons i rest ih =>
      intro out g m
      have hstep : basicSumBackward (i :: rest) out g
          = basicSumBackward rest out
              (if (nodeAt g i).requiresGrad = true then
                updateNode g i fun nd => { nd with grad := nd.grad + (nodeAt g out).grad }
              else g) := rfl
      rw [hstep]
      by_cases h : (nodeAt g i).requiresGrad = true
      · rw [if_pos h, ih]
        exact updateNode_keepFlag g i
          (fun nd => { nd with grad := nd.grad + (nodeAt g out).grad }) (fun nd => rfl) m
      · rw [if_neg h]
        exact ih out g m

theorem scalarInterp_keepFlag :
    ∀ o ins out idx (g : Graph Int ScalarOp) m,
      (nodeAt (scalarInterp o ins out idx g) m).requiresGrad = (nodeAt g m).requiresGrad :=
  fun _ ins out _ g m => basicSumBackward_keepFlag ins out g m

/-! ### The claims -/

/-- C1: for every acyclic graph built by Module calls (a well-formed store,
the root a valid identity), the visitation order computed by `Backward` —
the post-order depth-first sort with an identity-keyed visited set — places
every visited parent strictly before every visited node that lists it as a
parent, and `Backward` replays exactly that order in reverse, so a node's
grad is fully accumulated by its visited children's closures before its own
closure runs and propagates upstream. -/
theorem claim_C1 [Inhabited T] [AssignInt T] (interp : Interp T Op)
    (g : Graph T Op) (root : Nat) (hwf : wellFormed g) (hroot : root < g.length) :
    (∀ i j (hi : i < (TopologicalSort (setGradOne g root) root).length)
        (hj : j < (TopologicalSort (setGradOne g root) root).length),
      (TopologicalSort (setGradOne g root) root).get ⟨i, hi⟩
          ∈ (nodeAt (setGradOne g root)
              ((TopologicalSort (setGradOne g root) root).get ⟨j, hj⟩)).parents →
      i < j) ∧
    ((nodeAt g root).requiresGrad = true →
      Backward interp g root
        = replay interp (setGradOne g root)
            (TopologicalSort (setGradOne g root) root).reverse) := by
  constructor
  · exact topologicalSort_parents_before (setGradOne g root)
      (wellFormed_setGradOne g root hwf) root (by rw [length_setGradOne]; exact hroot)
  · intro hrg
    unfold Backward
    rw [if_neg (by rw [hrg]; simp)]

/-- Witness for C1 at the RequiresGradFalseCase graph with root f = 5. -/
theorem claim_C1_witness :
    wellFormed mixedGraph ∧ 5 < mixedGraph.length ∧
    Backward scalarInterp mixedGraph 5
      = replay scalarInterp (setGradOne mixedGraph 5)
          (TopologicalSort (setGradOne mixedGraph 5) 5).reverse :=
  ⟨by decide, by decide,
    (claim_C1 scalarInterp mixedGraph 5 (by decide) (by decide)).2 (by decide)⟩

/-- C2: fan-out accumulation. For differentiable leaves a and b of any
values, with c = Sum(a, b) and d = Sum(c, b), after `Backward` on d the
grads are d = 1, c = 1, b = 2 (one contribution from each of c's and d's
closures: additive, never overwriting) and a = 1. -/
theorem claim_C2 (va vb : Int) :
    (nodeAt (Backward scalarInterp (fanoutGraph va vb) 3) 3).grad = 1 ∧
    (nodeAt (Backward scalarInterp (fanoutGraph va vb) 3) 2).grad = 1 ∧
    (nodeAt (Backward scalarInterp (fanoutGraph va vb) 3) 1).grad = 2 ∧
    (nodeAt (Backward scalarInterp (fanoutGraph va vb) 3) 0).grad = 1 := by
  refine ⟨?_, ?_, ?_, ?_⟩ <;>
    simp [fanoutGraph, ModuleForward, basicSumForward, wireOutputs, updateNode, nodeAt,
      Node.construct, Node.defaultNode, Backward, setGradOne, TopologicalSort,
      TopologicalSortInner, visitParents, replay, scalarInterp, basicSumBackward,
      AssignInt.assign]

/-- C3: exclusion of non-differentiable subgraphs. In the
RequiresGradFalseCase graph the order contains neither the non-differentiable
leaf a (0) nor c = Sum(a,a) (2) — it is exactly [b, d, e, f] — and after
`Backward` on f the grads are a = 0, b = 3, c = 0, d = 1, e = 1. -/
theorem claim_C3 :
    TopologicalSort (setGradOne mixedGraph 5) 5 = [1, 3, 4, 5] ∧
    (nodeAt (Backward scalarInterp mixedGraph 5) 0).grad = 0 ∧
    (nodeAt (Backward scalarInterp mixedGraph 5) 1).grad = 3 ∧
    (nodeAt (Backward scalarInterp mixedGraph 5) 2).grad = 0 ∧
    (nodeAt (Backward scalarInterp mixedGraph 5) 3).grad = 1 ∧
    (nodeAt (Backward scalarInterp mixedGraph 5) 4).grad = 1 := by decide

/-- C4: Module Forward wiring. For every input list, Forward computes the
flag as the disjunction over the inputs' flags, and for every output node
produced by the backend (fresh and distinct) sets its parents to exactly the
input list, sets its flag to that disjunction, and binds a closure capturing
the inputs, the output's identity and its index among the outputs exactly
when the disjunction is true. -/
theorem claim_C4 [Inhabited T] (op : Op)
    (fwd : List Nat → Graph T Op → Graph T Op × List Nat)
    (g : Graph T Op) (inputs : List Nat) (g1 : Graph T Op) (outs : List Nat)
    (hfwd : fwd inputs g = (g1, outs))
    (hnodup : outs.Nodup)
    (hvalid : ∀ o ∈ outs, o < g1.length)
    (hfresh : ∀ o ∈ outs, (nodeAt g1 o).backwardFn = none) :
    (ModuleForward op fwd g inputs).2 = outs ∧
    ∀ k (hk : k < outs.length),
      (nodeAt (ModuleForward op fwd g inputs).1 (outs.get ⟨k, hk⟩)).parents = inputs ∧
      (nodeAt (ModuleForward op fwd g inputs).1 (outs.get ⟨k, hk⟩)).requiresGrad
        = (inputs.any fun i => (nodeAt g i).requiresGrad) ∧
      (nodeAt (ModuleForward op fwd g inputs).1 (outs.get ⟨k, hk⟩)).backwardFn
        = (if (inputs.any fun i => (nodeAt g i).requiresGrad) then
            some ⟨op, inputs, outs.get ⟨k, hk⟩, k⟩ else none) := by
  have hM : ModuleForward op fwd g inputs
      = (wireOutputs op inputs (inputs.any fun i => (nodeAt g i).requiresGrad) 0 outs g1,
         outs) := by
    simp only [ModuleForward, hfwd]
  rw [hM]
  refine ⟨rfl, ?_⟩
  intro k hk
  rw [wireOutputs_nodeAt_get op inputs _ outs 0 g1 hnodup hvalid k hk]
  refine ⟨rfl, rfl, ?_⟩
  show (if (inputs.any fun i => (nodeAt g i).requiresGrad) = true then
      some ⟨op, inputs, outs.get ⟨k, hk⟩, 0 + k⟩
    else (nodeAt g1 (outs.get ⟨k, hk⟩)).backwardFn) = _
  rw [Nat.zero_add]
  by_cases hb : (inputs.any fun i => (nodeAt g i).requiresGrad) = true
  · rw [if_pos hb, if_pos hb]
  · rw [if_neg hb, if_neg hb]
    exact hfresh _ (List.get_mem outs k hk)

/-- Witness for C4 at ForwardCaseSum2Numbers: sum of the 3 and 4 leaves. -/
theorem claim_C4_witness :
    (ModuleForward ScalarOp.basicSum basicSumForward leaf34 [0, 1]).2 = [2] ∧
    ((nodeAt (ModuleForward ScalarOp.basicSum basicSumForward leaf34 [0, 1]).1 2).parents
        = [0, 1] ∧
      (nodeAt (ModuleForward ScalarOp.basicSum basicSumForward leaf34 [0, 1]).1 2).requiresGrad
        = ([0, 1].any fun i => (nodeAt leaf34 i).requiresGrad) ∧
      (nodeAt (ModuleForward ScalarOp.basicSum basicSumForward leaf34 [0, 1]).1 2).backwardFn
        = (if ([0, 1].any fun i => (nodeAt leaf34 i).requiresGrad) then
            some ⟨ScalarOp.basicSum, [0, 1], 2, 0⟩ else none)) := by
  have h := claim_C4 ScalarOp.basicSum basicSumForward leaf34 [0, 1]
    (basicSumForward [0, 1] leaf34).1 [2] (by decide) (by decide) (by decide) (by decide)
  exact ⟨h.1, h.2 0 (by decide)⟩

/-- C5: node construction. For every value and flag, the constructor stores
the value, leaves parents empty and binds no closure; the flag defaults to
true; if the flag is set the grad is the shape-matched zero obtained by
assigning value then 0 — for a container every element is zeroed and the
length is kept — otherwise the grad stays default. -/
theorem claim_C5 :
    (∀ (T Op : Type) [Inhabited T] [AssignInt T] (v : T) (b : Bool),
      (Node.construct v b : Node T Op).data = v ∧
      (Node.construct v b : Node T Op).parents = [] ∧
      (Node.construct v b : Node T Op).backwardFn = none ∧
      (Node.construct v b : Node T Op).requiresGrad = b ∧
      (Node.construct v b : Node T Op).grad
        = (if b then AssignInt.assign v 0 else default)) ∧
    (∀ (T Op : Type) [Inhabited T] [AssignInt T] (v : T),
      (Node.construct v : Node T Op).requiresGrad = true) ∧
    (∀ v : List Int,
      (Node.construct v true : Node (List Int) VecOp).grad.length = v.length ∧
      ∀ x ∈ (Node.construct v true : Node (List Int) VecOp).grad, x = 0) ∧
    (∀ v : Int, (Node.construct v true : Node Int ScalarOp).grad = 0) := by
  refine ⟨?_, ?_, ?_, ?_⟩
  · intro T Op _ _ v b
    exact ⟨rfl, rfl, rfl, rfl, rfl⟩
  · intro T Op _ _ v
    rfl
  · intro v
    constructor
    · show (v.map fun _ => (0 : Int)).length = v.length
      exact List.length_map v _
    · intro x hx
      have hx' : x ∈ v.map fun _ => (0 : Int) := hx
      obtain ⟨a, _, h⟩ := List.mem_map.1 hx'
      exact h.symm
  · intro v
    rfl

/-- C6: the requiresGrad flag of every node is immutable once the node
exists. Module Forward — provided the backend only appends fresh output
nodes and leaves existing ones alone, as the operation contract demands —
does not change the flag of any pre-existing node, and Backward — provided
the backend backward preserves flags, as accumulation-only backwards do —
changes no node's flag at all. -/
theorem claim_C6 (T Op : Type) [Inhabited T] [AssignInt T] :
    (∀ (op : Op) (fwd : List Nat → Graph T Op → Graph T Op × List Nat)
        (g : Graph T Op) (inputs : List Nat) (g1 : Graph T Op) (outs : List Nat),
      fwd inputs g = (g1, outs) →
      (∀ n, n < g.length → nodeAt g1 n = nodeAt g n) →
      (∀ o ∈ outs, g.length ≤ o) →
      ∀ n, n < g.length →
        (nodeAt (ModuleForward op fwd g inputs).1 n).requiresGrad
          = (nodeAt g n).requiresGrad) ∧
    (∀ (interp : Interp T Op),
      (∀ o ins out idx (g : Graph T Op) m,
        (nodeAt (interp o ins out idx g) m).requiresGrad = (nodeAt g m).requiresGrad) →
      ∀ (g : Graph T Op) (root m : Nat),
        (nodeAt (Backward interp g root) m).requiresGrad
          = (nodeAt g m).requiresGrad) := by
  constructor
  · intro op fwd g inputs g1 outs hfwd hpres hfresh n hn
    have hM : (ModuleForward op fwd g inputs).1
        = wireOutputs op inputs (inputs.any fun i => (nodeAt g i).requiresGrad) 0 outs g1 := by
      simp only [ModuleForward, hfwd]
    rw [hM, wireOutputs_nodeAt_notMem op inputs _ outs 0 g1 n
        (fun hmem => absurd hn (Nat.not_lt.2 (hfresh n hmem))), hpres n hn]
  · intro interp hinterp g root m
    unfold Backward
    by_cases h : (nodeAt g root).requiresGrad = false
    · rw [if_pos h]
    · rw [if_neg h]
      show (nodeAt (replay interp (setGradOne g root)
          (TopologicalSort (setGradOne g root) root).reverse) m).requiresGrad = _
      rw [replay_keepFlag interp hinterp]
      exact (nodeAt_setGradOne g root m).2.1

/-- Witness for C6 at the sum of the 3 and 4 leaves, with the scalar sum
backend (whose backward only accumulates grads). -/
theorem claim_C6_witness :
    (nodeAt (ModuleForward ScalarOp.basicSum basicSumForward leaf34 [0, 1]).1 0).requiresGrad
      = (nodeAt leaf34 0).requiresGrad ∧
    (nodeAt (Backward scalarInterp pairSumGraph 2) 0).requiresGrad
      = (nodeAt pairSumGraph 0).requiresGrad :=
  ⟨(claim_C6 Int ScalarOp).1 ScalarOp.basicSum basicSumForward leaf34 [0, 1]
      (basicSumForward [0, 1] leaf34).1 [2] (by decide) (by decide) (by decide) 0 (by decide),
    (claim_C6 Int ScalarOp).2 scalarInterp scalarInterp_keepFlag pairSumGraph 2 0⟩

/-- C7 counterexample: the claim predicts that a second `Backward` call adds
the same contributions on top, i.e. that in the fan-out graph the leaf a
would reach grad 1 + 1 = 2; the code leaves a at 3, because c's accumulated
grad (now 2) is propagated again. -/
theorem claim_C7_counterexample :
    (nodeAt (Backward scalarInterp (fanoutGraph 10 100) 3) 0).grad = 1 ∧
    (nodeAt (Backward scalarInterp
        (Backward scalarInterp (fanoutGraph 10 100) 3) 3) 0).grad = 3 ∧
    (3 : Int) ≠ 1 + 1 := by
  exact ⟨by decide, by decide, by decide⟩

/-- C7 (amended): `Backward` never resets a grad to zero before replaying —
the replayed state is the input graph with only the root's grad assigned to
1 — so repeated calls accumulate further, and zeroing between calls is the
caller's responsibility; for a single sum of differentiable leaves each leaf
ends with grad 2 after two calls. (A second call need not add exactly the
first call's contributions in deeper graphs: accumulated intermediate grads
are propagated again, see the counterexample.) -/
theorem claim_C7 (T Op : Type) [Inhabited T] [AssignInt T] :
    (∀ (g : Graph T Op) (root m : Nat), m ≠ root →
      (nodeAt (setGradOne g root) m).grad = (nodeAt g m).grad) ∧
    (∀ (interp : Interp T Op) (g : Graph T Op) (root : Nat),
      (nodeAt g root).requiresGrad = true →
      Backward interp g root
        = replay interp (setGradOne g root)
            (TopologicalSort (setGradOne g root) root).reverse) ∧
    ((nodeAt (Backward scalarInterp (Backward scalarInterp pairSumGraph 2) 2) 0).grad = 2 ∧
      (nodeAt (Backward scalarInterp (Backward scalarInterp pairSumGraph 2) 2) 1).grad = 2) := by
  refine ⟨?_, ?_, by decide, by decide⟩
  · intro g root m hm
    exact (nodeAt_setGradOne g root m).2.2.2 hm
  · intro interp g root hrg
    unfold Backward
    rw [if_neg (by rw [hrg]; simp)]

/-- Witness for C7 at the pairwise sum graph with the scalar backend. -/
theorem claim_C7_witness :
    (nodeAt (setGradOne pairSumGraph 2) 0).grad = (nodeAt pairSumGraph 0).grad ∧
    Backward scalarInterp pairSumGraph 2
      = replay scalarInterp (setGradOne pairSumGraph 2)
          (TopologicalSort (setGradOne pairSumGraph 2) 2).reverse :=
  ⟨(claim_C7 Int ScalarOp).1 pairSumGraph 2 0 (by decide),
    (claim_C7 Int ScalarOp).2.1 scalarInterp pairSumGraph 2 (by decide)⟩

/-- C8: multi-output split. Splitting the differentiable vector [1,2,3,4]
yields four single-element outputs with values 1, 2, 3, 4, and calling
`Backward` on only the third output accumulates exactly [0,0,1,0] into the
input's grad — only the index backed by that output's closure is seeded. -/
theorem claim_C8 :
    splitState.2 = [1, 2, 3, 4] ∧
    (nodeAt splitState.1 1).data = [1] ∧
    (nodeAt splitState.1 2).data = [2] ∧
    (nodeAt splitState.1 3).data = [3] ∧
    (nodeAt splitState.1 4).data = [4] ∧
    (nodeAt (Backward vecInterp splitState.1 3) 0).grad = [0, 0, 1, 0] := by decide

/-- C9: parameterized operation. The pow module with exponent 2 over the
differentiable input [1,2,3,4] yields output value [1,4,9,16]; the stored
closure carries the identical parameter 2 that the forward used, and after
`Backward` the input's grad is [2,4,6,8], i.e. 2 * x per element. -/
theorem claim_C9 :
    powState.2 = [1] ∧
    (nodeAt powState.1 1).data = [1, 4, 9, 16] ∧
    (nodeAt powState.1 1).backwardFn = some ⟨VecOp.pow 2, [0], 1, 0⟩ ∧
    (nodeAt (Backward vecInterp powState.1 1) 0).grad = [2, 4, 6, 8] := by decide

/-- C10: a default-constructed node has value-initialized data and grad,
requiresGrad true, no parents and no closure; the shape-matching zero
initialization of grad is skipped for this constructor even though the node
requires differentiation — observable over `Tracked`, where the value
constructor's grad records an assignment and the default one's does not. -/
theorem claim_C10 :
    (Node.defaultNode : Node Int ScalarOp).data = 0 ∧
    (Node.defaultNode : Node Int ScalarOp).grad = 0 ∧
    (Node.defaultNode : Node Int ScalarOp).requiresGrad = true ∧
    (Node.defaultNode : Node Int ScalarOp).parents = [] ∧
    (Node.defaultNode : Node Int ScalarOp).backwardFn = none ∧
    (Node.defaultNode : Node Tracked ScalarOp).grad = default ∧
    (Node.defaultNode : Node Tracked ScalarOp).requiresGrad = true ∧
    (Node.defaultNode : Node Tracked ScalarOp).grad
      ≠ (Node.construct (default : Tracked) true : Node Tracked ScalarOp).grad := by
  decide

end AutoDiff
